import Mathlib

/-!
Verification of the `fix-update-layer.py` maintenance script.

The script reads one file, applies `re.sub` with a fixed fully-escaped
pattern and a fixed replacement block, writes the file back when the
substitution changed the text, and otherwise prints fallback diagnostics
based on two substring checks.

The embedding works on `List Char` (character lists of the file content).
Machine-level I/O is modelled by an explicit `Option String` for the file
(`none` = the read raises) and a `RunOutcome` record holding the file
content after the run, whether a write happened, the printed status lines,
and whether an exception escaped.
-/

set_option maxRecDepth 40000

/-- The raw regular-expression source string `old_pattern` of the script
(lines 11-18), a Python raw triple-quoted literal, transcribed byte for
byte. -/
def old_pattern : String :=
  "  const updateLayer = useCallback\\(\\(id: string, updates: Partial<Layer>\\) => \\\x7b\n    setLayers\\(prev =>\n      prev\\.map\\(layer =>\n        layer\\.id === id \\? \\\x7b \\.\\.\\.layer, \\.\\.\\.updates \\\x7d : layer\n      \\)\n    \\);\n    setIsDirty\\(true\\);\n  \\\x7d, \\[\\]\\);"

/-- The replacement string `new_code` of the script (lines 20-36),
transcribed byte for byte. -/
def new_code : String :=
  "  const updateLayer = useCallback((id: string, updates: Partial<Layer>) => \x7b\n    setLayers(prev =>\n      prev.map(layer => \x7b\n        if (layer.id !== id) return layer;\n\n        // Auto-increment version if canvas is being updated to force React re-renders\n        // This ensures that even when the canvas reference stays the same but pixels change,\n        // React will detect the update and trigger composition\n        const newUpdates = updates.canvas\n          ? \x7b ...updates, version: (updates.version ?? (layer.version || 0) + 1) \x7d\n          : updates;\n\n        return \x7b ...layer, ...newUpdates \x7d;\n      \x7d)\n    );\n    setIsDirty(true);\n  \x7d, []);"

/-- The literal text fragment denoted by `old_pattern` once every escape
`\c` is unfolded to the plain character `c`.  (That `old_pattern` indeed
denotes exactly this literal is proved below in `parse_old_pattern`.) -/
def oldFragment : String :=
  "  const updateLayer = useCallback((id: string, updates: Partial<Layer>) => \x7b\n    setLayers(prev =>\n      prev.map(layer =>\n        layer.id === id ? \x7b ...layer, ...updates \x7d : layer\n      )\n    );\n    setIsDirty(true);\n  \x7d, []);"

/-- The signature substring checked by the fallback diagnostics
(script line 50). -/
def sigStr : String :=
  "const updateLayer = useCallback((id: string, updates: Partial<Layer>)"

/-- The already-patched marker substring checked by the fallback
diagnostics (script line 52). -/
def markerStr : String :=
  "const newUpdates = updates.canvas"

/-- The fixed file path the script reads and conditionally overwrites. -/
def targetPath : String := "src/contexts/StudioContext.tsx"

/-- Status line printed on a successful substitution (script line 45). -/
def successLine : String := "✓ Fixed updateLayer function"

/-- Status line printed when the pattern did not match (script line 47). -/
def warnLine : String := "⚠ Pattern not found - trying manual search..."

/-- Status line printed when the signature substring is found
(script line 51). -/
def foundLine : String := "  Found updateLayer function"

/-- Status line printed when the already-patched marker is found
(script line 53). -/
def patchedLine : String := "  ✓ Already patched!"

/-- Status line printed when the signature is present but the marker is
absent (script line 55). -/
def manualLine : String := "  ✗ Not patched - manual intervention needed"

/-- Characters that are metacharacters of Python's `re` syntax.  Any other
character in a pattern stands for itself. -/
def pyRegexMeta (c : Char) : Bool :=
  c ∈ ['.', '^', '$', '*', '+', '?', '\x7b', '\x7d', '[', ']', '(', ')', '|', '\\']

/-- Compilation of a Python regular expression restricted to patterns that
denote a single literal string: a backslash followed by a metacharacter
stands for that character, and a non-metacharacter stands for itself.
Patterns using any unescaped metacharacter (hence any operator, class or
anchor, including the `^`/`$` that `re.MULTILINE` affects) are outside the
model and map to `none`.  `re.sub`'s pattern argument on script line 39 is
covered because `old_pattern` is fully escaped (`parse_old_pattern`). -/
def parseLiteralPattern : List Char → Option (List Char)
  | [] => some []
  | '\\' :: c :: rest =>
    if pyRegexMeta c then (parseLiteralPattern rest).map (c :: ·) else none
  | c :: rest =>
    if pyRegexMeta c then none else (parseLiteralPattern rest).map (c :: ·)

/-- Leftmost, non-overlapping replacement of every occurrence of the
literal `pat` by `repl`, exactly as `re.sub` with an unlimited count scans
a subject: at each position either the pattern matches and is consumed, or
one character is emitted.  The `Nat` argument is explicit fuel bounding the
number of scan steps; any fuel of at least the subject's length computes
the full scan (`replaceFuel_fuelIrrel`), and the wrapper `pySub` passes the
subject's length. -/
def replaceFuel (pat repl : List Char) : Nat → List Char → List Char
  | 0, l => l
  | Nat.succ _, [] => []
  | Nat.succ n, c :: rest =>
    if pat.isPrefixOf (c :: rest) then
      repl ++ replaceFuel pat repl n ((c :: rest).drop pat.length)
    else c :: replaceFuel pat repl n rest

/-- Python's substring containment test `needle in hay`. -/
def containsSub (needle : List Char) : List Char → Bool
  | [] => needle.isEmpty
  | c :: rest => needle.isPrefixOf (c :: rest) || containsSub needle rest

/-- `tailFree a b` holds when no nonempty proper tail of `a` is a prefix
of `b`.  The three instances used below (`a, b` drawn from the fragment
and the replacement) are the side conditions under which a replacement
can never recreate the pattern. -/
def tailFree (a b : List Char) : Bool :=
  match a with
  | [] => true
  | _ :: t => (t.isEmpty || !(t.isPrefixOf b)) && tailFree t b

/-- The substitution of script line 39, `re.sub(old_pattern, new_code,
content, flags=re.MULTILINE)`, for an already-compiled literal pattern.
The replacement text contains no backslash, so Python's template
processing leaves it literal. -/
def pySub (pat repl : List Char) (content : String) : String :=
  String.mk (replaceFuel pat repl content.data.length content.data)

/-- Observable outcome of one run of the script: the target file's content
after the run (`none` = the file was unreadable and stays so), whether the
script opened the file for writing, the status lines printed to stdout in
order, and whether an uncaught exception terminated the run. -/
structure RunOutcome where
  fileAfter : Option String
  wrote : Bool
  printed : List String
  raised : Bool
deriving DecidableEq

/-- Script lines 39-55 for a compiled literal pattern `pat`: compute
`new_content`, overwrite the file and print the success line when it
differs from `content`, otherwise print the warning and run the two
nested substring checks. -/
def patchStep (pat : List Char) (content : String) : RunOutcome :=
  let new_content := pySub pat new_code.data content
  if new_content ≠ content then
    { fileAfter := some new_content, wrote := true,
      printed := [successLine], raised := false }
  else
    { fileAfter := some content, wrote := false,
      printed := warnLine ::
        (if containsSub sigStr.data content.data then
          foundLine ::
            (if containsSub markerStr.data content.data then [patchedLine]
             else [manualLine])
         else []),
      raised := false }

/-- One run of the script on file content `content`: compile `old_pattern`
and run `patchStep`.  `none` would mean the pattern falls outside the
literal-pattern model, which never happens (`parse_old_pattern`). -/
def runPatcher (content : String) : Option RunOutcome :=
  (parseLiteralPattern old_pattern.data).map (fun pat => patchStep pat content)

/-- The whole script including the initial read (script lines 7-8): when
the read of `targetPath` fails (`none`), the exception propagates before
any substitution, write or print. -/
def runScript : Option String → Option RunOutcome
  | none => some { fileAfter := none, wrote := false, printed := [], raised := true }
  | some content => runPatcher content

/-- An update payload `updates : Partial<Layer>` as used by the replacement
code: `canvas` records the truthiness of `updates.canvas`, `version` is
`some v` when `updates.version` is a (non-nullish) number and `none` when
the property is absent, and `rest` stands for all other properties, which
every spread copies verbatim. -/
structure JsUpdates (α : Type) where
  canvas : Bool
  version : Option Int
  rest : α

/-- The prior layer object: its `version` property (absent = `none`) and
its remaining properties. -/
structure JsLayer (β : Type) where
  version : Option Int
  rest : β

/-- JavaScript `x || 0` on a numeric property: the value when truthy, `0`
when the property is absent (`undefined`) or holds the falsy number `0`. -/
def jsOrZero : Option Int → Int
  | none => 0
  | some v => if v = 0 then 0 else v

/-- `jsOrZero` coincides with defaulting an absent value to `0`. -/
lemma jsOrZero_eq_getD (v : Option Int) : jsOrZero v = v.getD 0 := by
  cases v with
  | none => rfl
  | some n =>
    simp only [jsOrZero, Option.getD_some]
    split <;> omega

/-- The `newUpdates` value computed by the replacement code (new_code
lines 28-30): `updates.canvas ? { ...updates, version: (updates.version ??
(layer.version || 0) + 1) } : updates`.  `x ?? y` (nullish coalescing) on
an `Option Int` is `Option.getD`, and `layer.version || 0` is
`jsOrZero`. -/
def newUpdates (layer : JsLayer β) (updates : JsUpdates α) : JsUpdates α :=
  if updates.canvas then
    { updates with version := some (updates.version.getD (jsOrZero layer.version + 1)) }
  else updates

/-- The `version` property of `{ ...layer, ...newUpdates }` (new_code
line 32): the spread of `newUpdates` overrides the layer's version exactly
when `newUpdates` carries one. -/
def updatedVersion (layer : JsLayer β) (updates : JsUpdates α) : Option Int :=
  match (newUpdates layer updates).version with
  | some v => some v
  | none => layer.version

/-- The first occurrence of the literal `pat` in `l`, as the split
`l = u ++ pat ++ t` with `u` the (occurrence-free) text before the match;
`none` when `pat` does not occur.  This is the wording of the claim that
the substitution is plain literal string replacement, used as the
specification side of the refinement proof. -/
def splitFirst (pat : List Char) : List Char → Option (List Char × List Char)
  | [] => if pat.isPrefixOf [] then some ([], []) else none
  | c :: rest =>
    if pat.isPrefixOf (c :: rest) then some ([], (c :: rest).drop pat.length)
    else (splitFirst pat rest).map (fun p => (c :: p.1, p.2))

/-- Bridge between the boolean prefix test and the prefix relation. -/
lemma isPrefixOf_eq (l₁ l₂ : List Char) : l₁.isPrefixOf l₂ = true ↔ l₁ <+: l₂ :=
  List.isPrefixOf_iff_prefix

/-- A prefix is in particular an infix. -/
lemma infix_of_pre {l₁ l₂ : List Char} (h : l₁ <+: l₂) : l₁ <:+: l₂ :=
  List.IsPrefix.isInfix h

/-- A suffix is in particular an infix. -/
lemma infix_of_suf {l₁ l₂ : List Char} (h : l₁ <:+ l₂) : l₁ <:+: l₂ :=
  List.IsSuffix.isInfix h

/-- `containsSub` decides the contiguous-substring (infix) relation,
exactly Python's `in` on strings. -/
lemma containsSub_iff (n l : List Char) : containsSub n l = true ↔ n <:+: l := by
  induction l with
  | nil => simp [containsSub, List.isEmpty_iff, List.infix_nil]
  | cons c rest ih =>
    simp [containsSub, Bool.or_eq_true, isPrefixOf_eq, ih, List.infix_cons_iff]

/-- Soundness of `tailFree`: no nonempty proper tail of `a` is a prefix
of `b`. -/
lemma tailFree_sound {a b : List Char} (h : tailFree a b = true) :
    ∀ j, 1 ≤ j → a.drop j ≠ [] → ¬ (a.drop j <+: b) := by
  induction a with
  | nil => intro j _ hne; simp at hne
  | cons x t ih =>
    intro j hj hne
    simp only [tailFree, Bool.and_eq_true, Bool.or_eq_true] at h
    obtain ⟨k, rfl⟩ : ∃ k, j = k + 1 := ⟨j - 1, by omega⟩
    rw [List.drop_succ_cons] at hne ⊢
    rcases Nat.eq_zero_or_pos k with hk | hk
    · subst hk
      rw [List.drop_zero] at hne ⊢
      rcases h.1 with he | hnp
      · exact absurd (List.isEmpty_iff.mp he) hne
      · rw [Bool.not_eq_true'] at hnp
        intro hpre
        rw [(isPrefixOf_eq t b).mpr hpre] at hnp
        cases hnp
    · exact ih h.2 k hk hne

/-- `replaceFuel` on the empty subject is empty. -/
lemma replaceFuel_nil (p r : List Char) (n : Nat) : replaceFuel p r n [] = [] := by
  cases n <;> rfl

/-- When the pattern does not occur in the subject, the scan is the
identity, whatever the fuel. -/
lemma noOcc_replaceFuel (p r : List Char) :
    ∀ n l, ¬ p <:+: l → replaceFuel p r n l = l := by
  intro n
  induction n with
  | zero => intro l _; rfl
  | succ n ih =>
    intro l h
    cases l with
    | nil => rfl
    | cons c rest =>
      have hpre : ¬ p.isPrefixOf (c :: rest) = true := by
        rw [isPrefixOf_eq]; exact fun hp => h (infix_of_pre hp)
      simp only [replaceFuel, if_neg hpre]
      rw [ih rest (fun hr => h (List.infix_cons hr))]

/-- Any fuel of at least the subject's length computes the same scan. -/
lemma replaceFuel_fuelIrrel (p r : List Char) (hp : p ≠ []) :
    ∀ n m l, l.length ≤ n → l.length ≤ m →
      replaceFuel p r n l = replaceFuel p r m l := by
  intro n
  induction n with
  | zero =>
    intro m l hn _
    have : l = [] := List.eq_nil_of_length_eq_zero (Nat.le_zero.mp hn)
    subst this
    rw [replaceFuel_nil, replaceFuel_nil]
  | succ n ih =>
    intro m l hn hm
    cases l with
    | nil => rw [replaceFuel_nil, replaceFuel_nil]
    | cons c rest =>
      cases m with
      | zero => simp at hm
      | succ m =>
        have hplen : 1 ≤ p.length := List.length_pos.mpr hp
        by_cases hpre : p.isPrefixOf (c :: rest) = true
        · have hlen : ((c :: rest).drop p.length).length ≤ n := by
            simp only [List.length_drop, List.length_cons] at *
            omega
          have hlen' : ((c :: rest).drop p.length).length ≤ m := by
            simp only [List.length_drop, List.length_cons] at *
            omega
          simp only [replaceFuel, if_pos hpre]
          rw [ih m _ hlen hlen']
        · have hlen : rest.length ≤ n := by
            simp only [List.length_cons] at hn; omega
          have hlen' : rest.length ≤ m := by
            simp only [List.length_cons] at hm; omega
          simp only [replaceFuel, if_neg hpre]
          rw [ih m rest hlen hlen']

/-- When the replacement is at least as long as the pattern, the scan never
shortens the subject. -/
lemma replaceFuel_length_ge (p r : List Char) (hp : p ≠ [])
    (hpr : p.length ≤ r.length) :
    ∀ n l, l.length ≤ n → l.length ≤ (replaceFuel p r n l).length := by
  intro n
  induction n with
  | zero =>
    intro l hn
    have : l = [] := List.eq_nil_of_length_eq_zero (Nat.le_zero.mp hn)
    subst this; simp [replaceFuel_nil]
  | succ n ih =>
    intro l hn
    cases l with
    | nil => simp [replaceFuel_nil]
    | cons c rest =>
      have hplen : 1 ≤ p.length := List.length_pos.mpr hp
      by_cases hpre : p.isPrefixOf (c :: rest) = true
      · have hple : p.length ≤ (c :: rest).length :=
          List.IsPrefix.length_le ((isPrefixOf_eq _ _).mp hpre)
        have hlen : ((c :: rest).drop p.length).length ≤ n := by
          simp only [List.length_drop, List.length_cons] at *
          omega
        have h2 := ih _ hlen
        simp only [replaceFuel, if_pos hpre, List.length_append]
        simp only [List.length_drop, List.length_cons] at *
        omega
      · have hlen : rest.length ≤ n := by
          simp only [List.length_cons] at hn; omega
        have h2 := ih rest hlen
        simp only [replaceFuel, if_neg hpre, List.length_cons]
        omega

/-- When the replacement is strictly longer than the pattern and the
pattern occurs, the scan strictly lengthens the subject; in particular the
result differs from the subject. -/
lemma replaceFuel_length_gt (p r : List Char) (hp : p ≠ [])
    (hpr : p.length < r.length) :
    ∀ n l, l.length ≤ n → p <:+: l → l.length < (replaceFuel p r n l).length := by
  intro n
  induction n with
  | zero =>
    intro l hn hocc
    have : l = [] := List.eq_nil_of_length_eq_zero (Nat.le_zero.mp hn)
    subst this
    exact absurd (List.infix_nil.mp hocc) hp
  | succ n ih =>
    intro l hn hocc
    cases l with
    | nil => exact absurd (List.infix_nil.mp hocc) hp
    | cons c rest =>
      have hplen : 1 ≤ p.length := List.length_pos.mpr hp
      by_cases hpre : p.isPrefixOf (c :: rest) = true
      · have hple : p.length ≤ (c :: rest).length :=
          List.IsPrefix.length_le ((isPrefixOf_eq _ _).mp hpre)
        have hlen : ((c :: rest).drop p.length).length ≤ n := by
          simp only [List.length_drop, List.length_cons] at *
          omega
        have h2 := replaceFuel_length_ge p r hp (Nat.le_of_lt hpr) n _ hlen
        simp only [replaceFuel, if_pos hpre, List.length_append]
        simp only [List.length_drop, List.length_cons] at *
        omega
      · have hocc' : p <:+: rest := by
          rcases List.infix_cons_iff.mp hocc with h | h
          · exact absurd ((isPrefixOf_eq _ _).mpr h) hpre
          · exact h
        have hlen : rest.length ≤ n := by
          simp only [List.length_cons] at hn; omega
        have h2 := ih rest hlen hocc'
        simp only [replaceFuel, if_neg hpre, List.length_cons]
        omega

/-- A prefix of a concatenation either stays inside the first part or
swallows it whole. -/
lemma prefix_append_cases {t a b : List Char} (h : t <+: a ++ b) :
    t <+: a ∨ ∃ t₂, t = a ++ t₂ ∧ t₂ <+: b := by
  induction a generalizing t with
  | nil => exact Or.inr ⟨t, by simp, by simpa using h⟩
  | cons c a' ih =>
    cases t with
    | nil => exact Or.inl List.nil_prefix
    | cons d t' =>
      rw [List.cons_append, List.cons_prefix_cons] at h
      obtain ⟨rfl, h'⟩ := h
      rcases ih h' with h1 | ⟨t₂, rfl, h2⟩
      · exact Or.inl (List.cons_prefix_cons.mpr ⟨rfl, h1⟩)
      · exact Or.inr ⟨t₂, by simp, h2⟩

/-- An infix of a concatenation lies in the first part, lies in the second
part, or straddles the border: a nonempty suffix of the first part glued
to a nonempty prefix of the second. -/
lemma infix_append_split {F a b : List Char} (h : F <:+: a ++ b) :
    F <:+: a ∨ F <:+: b ∨
      ∃ s t, F = s ++ t ∧ s ≠ [] ∧ t ≠ [] ∧ s <:+ a ∧ t <+: b := by
  induction a generalizing F with
  | nil => exact Or.inr (Or.inl (by simpa using h))
  | cons c a' ih =>
    rw [List.cons_append, List.infix_cons_iff] at h
    rcases h with h | h
    · cases F with
      | nil => exact Or.inl (List.nil_infix)
      | cons d F' =>
        rw [List.cons_prefix_cons] at h
        obtain ⟨rfl, h'⟩ := h
        rcases prefix_append_cases h' with h1 | ⟨t₂, rfl, h2⟩
        · exact Or.inl (infix_of_pre (List.cons_prefix_cons.mpr ⟨rfl, h1⟩))
        · rcases eq_or_ne t₂ [] with rfl | hne
          · exact Or.inl (by simp [List.infix_refl])
          · exact Or.inr (Or.inr ⟨d :: a', t₂, by simp, by simp, hne,
              List.suffix_refl _, h2⟩)
    · rcases ih h with h1 | h2 | ⟨s, t, rfl, hs, ht, hsuf, hpre⟩
      · exact Or.inl (List.infix_cons h1)
      · exact Or.inr (Or.inl h2)
      · exact Or.inr (Or.inr ⟨s, t, rfl, hs, ht,
          List.IsSuffix.trans hsuf (List.suffix_cons c a'), hpre⟩)

/-- Core combinatorial lemma about the scan.  Under the side conditions
that no nonempty proper tail of `F` is a prefix of `R`, `F` is not an
infix of `R`, no nonempty suffix of `R` shorter than `F` is a prefix of
`F`, and `F` is nonempty and no longer than `R`, the scan output never
contains `F`; moreover any proper nonempty tail of `F` that is a prefix
of the output was already a prefix of the input. -/
lemma replaceFuel_noRecur (F R : List Char) (hF : F ≠ [])
    (hFR : F.length ≤ R.length)
    (h1 : ∀ j, 1 ≤ j → j < F.length → ¬ (F.drop j <+: R))
    (h2 : ¬ F <:+: R)
    (h3 : ∀ s, s <:+ R → s ≠ [] → s.length < F.length → ¬ s <+: F) :
    ∀ n l, l.length ≤ n →
      (¬ F <:+: replaceFuel F R n l) ∧
      (∀ j, 1 ≤ j → j < F.length →
        F.drop j <+: replaceFuel F R n l → F.drop j <+: l) := by
  intro n
  induction n with
  | zero =>
    intro l hn
    have hl : l = [] := List.eq_nil_of_length_eq_zero (Nat.le_zero.mp hn)
    subst hl
    rw [replaceFuel_nil]
    refine ⟨fun h => hF (List.infix_nil.mp h), ?_⟩
    intro j hj hjlt hpre
    have := List.drop_eq_nil_iff.mp (List.prefix_nil.mp hpre)
    omega
  | succ n ih =>
    intro l hn
    cases l with
    | nil =>
      rw [replaceFuel_nil]
      refine ⟨fun h => hF (List.infix_nil.mp h), ?_⟩
      intro j hj hjlt hpre
      have := List.drop_eq_nil_iff.mp (List.prefix_nil.mp hpre)
      omega
    | cons c rest =>
      have hplen : 1 ≤ F.length := List.length_pos.mpr hF
      by_cases hpre : F.isPrefixOf (c :: rest) = true
      · have hple : F.length ≤ (c :: rest).length :=
          List.IsPrefix.length_le ((isPrefixOf_eq _ _).mp hpre)
        have hlen : ((c :: rest).drop F.length).length ≤ n := by
          simp only [List.length_drop, List.length_cons] at *
          omega
        obtain ⟨ihA, ihB⟩ := ih _ hlen
        simp only [replaceFuel, if_pos hpre]
        constructor
        · intro hocc
          rcases infix_append_split hocc with hR | hT | ⟨s, t, hFst, hs, ht, hsR, htT⟩
          · exact h2 hR
          · exact ihA hT
          · have hsF : s <+: F := hFst ▸ List.prefix_append s t
            have hflen : F.length = s.length + t.length := by rw [hFst]; simp
            have htlen : 1 ≤ t.length := List.length_pos.mpr ht
            exact h3 s hsR hs (by omega) hsF
        · intro j hj hjlt hdpre
          exfalso
          have hdlen : (F.drop j).length < R.length := by
            simp only [List.length_drop]; omega
          rcases prefix_append_cases hdpre with hdR | ⟨t₂, hdt, _⟩
          · exact h1 j hj hjlt hdR
          · have : (F.drop j).length = R.length + t₂.length := by rw [hdt]; simp
            omega
      · have hlen : rest.length ≤ n := by simp only [List.length_cons] at hn; omega
        obtain ⟨ihA, ihB⟩ := ih rest hlen
        simp only [replaceFuel, if_neg hpre]
        have hnp : ¬ F <+: (c :: rest) := fun h => hpre ((isPrefixOf_eq _ _).mpr h)
        constructor
        · intro hocc
          rcases List.infix_cons_iff.mp hocc with hp | hT
          · cases F with
            | nil => exact hF rfl
            | cons f F1 =>
              rw [List.cons_prefix_cons] at hp
              obtain ⟨hfc, hp'⟩ := hp
              cases F1 with
              | nil => exact hnp (List.cons_prefix_cons.mpr ⟨hfc, List.nil_prefix⟩)
              | cons f1 F2 =>
                have hlt : 1 < (f :: f1 :: F2).length := by simp
                have hdrop : (f :: f1 :: F2).drop 1 = f1 :: F2 := rfl
                have := ihB 1 le_rfl hlt (by rw [hdrop]; exact hp')
                rw [hdrop] at this
                exact hnp (List.cons_prefix_cons.mpr ⟨hfc, this⟩)
          · exact ihA hT
        · intro j hj hjlt hdpre
          have hjF : j < F.length := hjlt
          rw [List.drop_eq_getElem_cons hjF] at hdpre ⊢
          rw [List.cons_prefix_cons] at hdpre
          obtain ⟨hcj, hdpre'⟩ := hdpre
          rcases Nat.lt_or_ge (j + 1) F.length with hlt | hge
          · have := ihB (j + 1) (by omega) hlt hdpre'
            exact List.cons_prefix_cons.mpr ⟨hcj, this⟩
          · have : F.drop (j + 1) = [] := List.drop_eq_nil_iff.mpr hge
            rw [this]
            exact List.cons_prefix_cons.mpr ⟨hcj, List.nil_prefix⟩

/-- Scan step when the pattern matches at the head. -/
lemma replaceFuel_cons_of_hit (F R : List Char) (hF : F ≠ []) (t : List Char) (n : Nat) :
    replaceFuel F R (n + 1) (F ++ t) = R ++ replaceFuel F R n t := by
  obtain ⟨f, F1, rfl⟩ : ∃ f F1, F = f :: F1 := by
    cases F with
    | nil => exact absurd rfl hF
    | cons f F1 => exact ⟨f, F1, rfl⟩
  rw [List.cons_append]
  have hpre : (f :: F1).isPrefixOf (f :: (F1 ++ t)) = true :=
    (isPrefixOf_eq _ _).mpr (by rw [← List.cons_append]; exact List.prefix_append _ _)
  simp only [replaceFuel, if_pos hpre]
  congr 1
  rw [← List.cons_append, List.drop_left]

/-- Scan step when the pattern does not match at the head. -/
lemma replaceFuel_cons_of_miss (F R : List Char) (c : Char) (rest : List Char) (n : Nat)
    (h : ¬ F <+: (c :: rest)) :
    replaceFuel F R (n + 1) (c :: rest) = c :: replaceFuel F R n rest := by
  have hpre : ¬ F.isPrefixOf (c :: rest) = true := fun hb => h ((isPrefixOf_eq _ _).mp hb)
  simp only [replaceFuel, if_neg hpre]

/-- When the pattern occurs, the replacement text appears in the output. -/
lemma replaceFuel_inserts_repl (F R : List Char) (hF : F ≠ []) :
    ∀ n l, l.length ≤ n → F <:+: l → R <:+: replaceFuel F R n l := by
  intro n
  induction n with
  | zero =>
    intro l hn hocc
    have : l = [] := List.eq_nil_of_length_eq_zero (Nat.le_zero.mp hn)
    subst this
    exact absurd (List.infix_nil.mp hocc) hF
  | succ n ih =>
    intro l hn hocc
    cases l with
    | nil => exact absurd (List.infix_nil.mp hocc) hF
    | cons c rest =>
      by_cases hpre : F.isPrefixOf (c :: rest) = true
      · simp only [replaceFuel, if_pos hpre]
        exact infix_of_pre (List.prefix_append R _)
      · have hocc' : F <:+: rest := by
          rcases List.infix_cons_iff.mp hocc with h | h
          · exact absurd ((isPrefixOf_eq _ _).mpr h) hpre
          · exact h
        have hlen : rest.length ≤ n := by simp only [List.length_cons] at hn; omega
        simp only [replaceFuel, if_neg hpre]
        exact List.infix_cons (ih rest hlen hocc')

/-- Stepping: when the text before an occurrence is occurrence-free and the
pattern cannot overlap itself (no nonempty proper suffix of `F` is a prefix
of `F`), the scan copies that text, replaces the occurrence, and continues
on the remainder — so later occurrences are replaced as well. -/
lemma replaceFuel_step (F R : List Char) (hF : F ≠ [])
    (h4 : ∀ s, s <:+ F → s ≠ [] → s ≠ F → ¬ s <+: F) :
    ∀ u t n, ¬ F <:+: u → (u ++ F ++ t).length ≤ n →
      replaceFuel F R n (u ++ F ++ t) = u ++ R ++ replaceFuel F R t.length t := by
  intro u
  induction u with
  | nil =>
    intro t n _ hn
    simp only [List.nil_append] at hn ⊢
    have hFlen : 1 ≤ F.length := List.length_pos.mpr hF
    cases n with
    | zero => simp only [List.length_append] at hn; omega
    | succ n =>
      rw [replaceFuel_cons_of_hit F R hF t n]
      congr 1
      apply replaceFuel_fuelIrrel F R hF
      · simp only [List.length_append] at hn; omega
      · exact le_rfl
  | cons a u' ih =>
    intro t n hu hn
    have hu' : ¬ F <:+: u' := fun h => hu (List.infix_cons h)
    have hl : (a :: u') ++ F ++ t = a :: (u' ++ F ++ t) := by simp
    have hmiss : ¬ F <+: a :: (u' ++ F ++ t) := by
      intro hp
      have hp' : F <+: (a :: u') ++ (F ++ t) := by simpa using hp
      rcases prefix_append_cases hp' with h1 | ⟨t₂, ht₂, hpre2⟩
      · exact hu (infix_of_pre h1)
      · rcases eq_or_ne t₂ [] with rfl | hne
        · apply hu
          rw [List.append_nil] at ht₂
          rw [ht₂]
        · have hlen2 : t₂.length < F.length := by
            rw [ht₂]
            simp only [List.length_append, List.length_cons]
            omega
          have hsufF : t₂ <:+ F := ⟨a :: u', ht₂.symm⟩
          have htF : t₂ <+: F := by
            rcases prefix_append_cases hpre2 with h | ⟨t₃, ht₃, _⟩
            · exact h
            · exfalso
              rw [ht₃] at hlen2
              simp only [List.length_append] at hlen2
              omega
          have hneF : t₂ ≠ F := by
            intro he
            rw [he] at hlen2
            omega
          exact h4 t₂ hsufF hne hneF htF
    cases n with
    | zero =>
      exfalso
      rw [hl] at hn
      simp only [List.length_cons] at hn
      omega
    | succ n =>
      rw [hl, replaceFuel_cons_of_miss F R a _ n hmiss]
      rw [ih t n hu' (by rw [hl] at hn; simp only [List.length_cons] at hn; omega)]
      simp

/-- `splitFirst` returns `none` exactly when the pattern does not occur. -/
lemma splitFirst_none_iff (p : List Char) (hp : p ≠ []) :
    ∀ l, splitFirst p l = none ↔ ¬ p <:+: l := by
  intro l
  induction l with
  | nil =>
    have hpre : ¬ p.isPrefixOf ([] : List Char) = true := by
      rw [isPrefixOf_eq, List.prefix_nil]
      exact hp
    simp [splitFirst, hpre, List.infix_nil, hp]
  | cons c rest ih =>
    by_cases hpre : p.isPrefixOf (c :: rest) = true
    · simp only [splitFirst, if_pos hpre]
      simp only [List.infix_cons_iff]
      constructor
      · intro h; cases h
      · intro h
        exact absurd (Or.inl ((isPrefixOf_eq _ _).mp hpre)) h
    · simp only [splitFirst, if_neg hpre, Option.map_eq_none', ih,
        List.infix_cons_iff]
      constructor
      · rintro h (h1 | h2)
        · exact hpre ((isPrefixOf_eq _ _).mpr h1)
        · exact h h2
      · exact fun h hr => h (Or.inr hr)

/-- `splitFirst` really splits: `l = u ++ p ++ t`. -/
lemma splitFirst_decomp (p : List Char) :
    ∀ l u t, splitFirst p l = some (u, t) → l = u ++ p ++ t := by
  intro l
  induction l with
  | nil =>
    intro u t h
    by_cases hpre : p.isPrefixOf ([] : List Char) = true
    · have hpnil : p = [] := List.prefix_nil.mp ((isPrefixOf_eq _ _).mp hpre)
      simp only [splitFirst, if_pos hpre, Option.some.injEq, Prod.mk.injEq] at h
      obtain ⟨rfl, rfl⟩ := h
      simp [hpnil]
    · simp [splitFirst, hpre] at h
  | cons c rest ih =>
    intro u t h
    by_cases hpre : p.isPrefixOf (c :: rest) = true
    · simp only [splitFirst, if_pos hpre, Option.some.injEq, Prod.mk.injEq] at h
      obtain ⟨rfl, rfl⟩ := h
      obtain ⟨w, hw⟩ := (isPrefixOf_eq _ _).mp hpre
      rw [← hw, List.drop_left]
      simp
    · simp only [splitFirst, if_neg hpre, Option.map_eq_some'] at h
      obtain ⟨⟨u', t'⟩, hsp, heq⟩ := h
      simp only [Prod.mk.injEq] at heq
      rw [← heq.1, ← heq.2]
      have hr := ih u' t' hsp
      simp [hr]

/-- The text before the first occurrence is occurrence-free. -/
lemma splitFirst_min (p : List Char) (hp : p ≠ []) :
    ∀ l u t, splitFirst p l = some (u, t) → ¬ p <:+: u := by
  intro l
  induction l with
  | nil =>
    intro u t h
    have hpre : ¬ p.isPrefixOf ([] : List Char) = true := by
      rw [isPrefixOf_eq, List.prefix_nil]
      exact hp
    simp [splitFirst, hpre] at h
  | cons c rest ih =>
    intro u t h
    by_cases hpre : p.isPrefixOf (c :: rest) = true
    · simp only [splitFirst, if_pos hpre, Option.some.injEq, Prod.mk.injEq] at h
      obtain ⟨rfl, rfl⟩ := h
      rw [List.infix_nil]
      exact hp
    · simp only [splitFirst, if_neg hpre, Option.map_eq_some'] at h
      obtain ⟨⟨u', t'⟩, hsp, heq⟩ := h
      simp only [Prod.mk.injEq] at heq
      rw [← heq.1]
      intro hocc
      rcases List.infix_cons_iff.mp hocc with hpp | hocc'
      · have hdec := splitFirst_decomp p rest u' t' hsp
        have hup : u' <+: rest := by
          rw [hdec, List.append_assoc]
          exact List.prefix_append u' _
        have : p <+: c :: rest :=
          List.IsPrefix.trans hpp (List.cons_prefix_cons.mpr ⟨rfl, hup⟩)
        exact hpre ((isPrefixOf_eq _ _).mpr this)
      · exact ih u' t' hsp hocc'

/-- Replacement of every occurrence of the literal `pat` by `repl`,
written the way the claim words it: find the first occurrence, replace
it, continue after it.  This is the specification side against which the
scan `replaceFuel` is proved equal. -/
def literalReplaceAll (pat repl : List Char) (l : List Char) : List Char :=
  if hp : pat = [] then l
  else
    match hs : splitFirst pat l with
    | none => l
    | some (u, t) => u ++ repl ++ literalReplaceAll pat repl t
termination_by l.length
decreasing_by
  have hd := splitFirst_decomp pat l u t hs
  have hlen : 1 ≤ pat.length := List.length_pos.mpr hp
  rw [hd]
  simp only [List.length_append]
  omega

/-- Unfolding `literalReplaceAll` when the pattern does not occur. -/
lemma literalReplaceAll_of_none {pat : List Char} (repl : List Char) {l : List Char}
    (hp : pat ≠ []) (hs : splitFirst pat l = none) :
    literalReplaceAll pat repl l = l := by
  unfold literalReplaceAll
  rw [dif_neg hp]
  split
  · rfl
  · rename_i u t hsome
    rw [hs] at hsome
    cases hsome

/-- Unfolding `literalReplaceAll` at the first occurrence. -/
lemma literalReplaceAll_of_some {pat : List Char} (repl : List Char) {l u t : List Char}
    (hp : pat ≠ []) (hs : splitFirst pat l = some (u, t)) :
    literalReplaceAll pat repl l = u ++ repl ++ literalReplaceAll pat repl t := by
  unfold literalReplaceAll
  rw [dif_neg hp]
  split
  · rename_i hnone
    rw [hs] at hnone
    cases hnone
  · rename_i u' t' hsome
    rw [hs] at hsome
    simp only [Option.some.injEq, Prod.mk.injEq] at hsome
    rw [hsome.1, hsome.2]
    congr 1
    conv_lhs => unfold literalReplaceAll

/-- The `re.sub` scan computes exactly first-occurrence-at-a-time literal
replacement. -/
lemma replaceFuel_eq_literal (p r : List Char) (hp : p ≠ []) :
    ∀ n l, l.length ≤ n → replaceFuel p r n l = literalReplaceAll p r l := by
  intro n
  induction n with
  | zero =>
    intro l hn
    have hl : l = [] := List.eq_nil_of_length_eq_zero (Nat.le_zero.mp hn)
    subst hl
    rw [replaceFuel_nil]
    have hpre : ¬ p.isPrefixOf ([] : List Char) = true := by
      rw [isPrefixOf_eq, List.prefix_nil]
      exact hp
    exact (literalReplaceAll_of_none r hp (by simp [splitFirst, hpre])).symm
  | succ n ih =>
    intro l hn
    cases l with
    | nil =>
      rw [replaceFuel_nil]
      have hpre : ¬ p.isPrefixOf ([] : List Char) = true := by
        rw [isPrefixOf_eq, List.prefix_nil]
        exact hp
      exact (literalReplaceAll_of_none r hp (by simp [splitFirst, hpre])).symm
    | cons c rest =>
      have hplen : 1 ≤ p.length := List.length_pos.mpr hp
      by_cases hpre : p.isPrefixOf (c :: rest) = true
      · have hs : splitFirst p (c :: rest) = some ([], (c :: rest).drop p.length) := by
          simp [splitFirst, hpre]
        rw [literalReplaceAll_of_some r hp hs]
        simp only [replaceFuel, if_pos hpre, List.nil_append]
        congr 1
        apply ih
        simp only [List.length_drop, List.length_cons] at *
        omega
      · cases hd : splitFirst p rest with
        | none =>
          have hs : splitFirst p (c :: rest) = none := by
            simp [splitFirst, hpre, hd]
          rw [literalReplaceAll_of_none r hp hs]
          apply noOcc_replaceFuel
          intro hocc
          rcases List.infix_cons_iff.mp hocc with h1 | h2
          · exact hpre ((isPrefixOf_eq _ _).mpr h1)
          · exact ((splitFirst_none_iff p hp rest).mp hd) h2
        | some ut =>
          obtain ⟨u, t⟩ := ut
          have hs : splitFirst p (c :: rest) = some (c :: u, t) := by
            simp [splitFirst, hpre, hd]
          rw [literalReplaceAll_of_some r hp hs]
          have hrest : rest.length ≤ n := by
            simp only [List.length_cons] at hn
            omega
          simp only [replaceFuel, if_neg hpre]
          rw [ih rest hrest, literalReplaceAll_of_some r hp hd]
          simp

/-- Every metacharacter in `old_pattern` is escaped and every escape is a
metacharacter escape, so the pattern compiles to the literal `oldFragment`. -/
lemma parse_old_pattern : parseLiteralPattern old_pattern.data = some oldFragment.data := by
  decide

/-- The compiled run always reaches `patchStep` with the fragment as the
literal pattern. -/
lemma runPatcher_eq (content : String) :
    runPatcher content = some (patchStep oldFragment.data content) := by
  rw [runPatcher, parse_old_pattern, Option.map_some']

/-- The fragment is nonempty. -/
lemma frag_ne_nil : oldFragment.data ≠ [] := by decide

/-- The replacement block is strictly longer than the fragment. -/
lemma frag_len_lt : oldFragment.data.length < new_code.data.length := by decide

/-- No nonempty proper tail of the fragment is a prefix of the
replacement. -/
lemma frag_tailFree_repl : tailFree oldFragment.data new_code.data = true := by decide

/-- No nonempty proper tail of the replacement is a prefix of the
fragment. -/
lemma repl_tailFree_frag : tailFree new_code.data oldFragment.data = true := by decide

/-- The fragment cannot overlap itself: no nonempty proper tail of it is
one of its prefixes. -/
lemma frag_tailFree_self : tailFree oldFragment.data oldFragment.data = true := by decide

/-- The fragment does not occur inside the replacement block. -/
lemma frag_not_in_repl : containsSub oldFragment.data new_code.data = false := by decide

/-- The signature substring occurs inside the replacement block. -/
lemma sig_in_repl : containsSub sigStr.data new_code.data = true := by decide

/-- The already-patched marker occurs inside the replacement block. -/
lemma marker_in_repl : containsSub markerStr.data new_code.data = true := by decide

/-- `containsSub` is `false` exactly on non-substrings. -/
lemma containsSub_eq_false_iff (n l : List Char) :
    containsSub n l = false ↔ ¬ n <:+: l := by
  rw [← containsSub_iff]
  cases containsSub n l <;> simp

/-- Side condition 1 instantiated: no nonempty proper tail of the fragment
prefixes the replacement. -/
lemma frag_h1 : ∀ j, 1 ≤ j → j < oldFragment.data.length →
    ¬ (oldFragment.data.drop j <+: new_code.data) := by
  intro j hj hjlt
  apply tailFree_sound frag_tailFree_repl j hj
  rw [Ne, List.drop_eq_nil_iff]
  omega

/-- Side condition 2 instantiated: the fragment is not an infix of the
replacement. -/
lemma frag_h2 : ¬ oldFragment.data <:+: new_code.data :=
  (containsSub_eq_false_iff _ _).mp frag_not_in_repl

/-- Side condition 3 instantiated: no nonempty suffix of the replacement
shorter than the fragment prefixes the fragment. -/
lemma frag_h3 : ∀ s, s <:+ new_code.data → s ≠ [] →
    s.length < oldFragment.data.length → ¬ s <+: oldFragment.data := by
  intro s hs hne hlen
  have hdrop : s = new_code.data.drop (new_code.data.length - s.length) :=
    List.suffix_iff_eq_drop.mp hs
  have hslen : s.length ≤ new_code.data.length := List.IsSuffix.length_le hs
  have hj : 1 ≤ new_code.data.length - s.length := by
    have := frag_len_lt
    omega
  rw [hdrop]
  apply tailFree_sound repl_tailFree_frag _ hj
  rw [← hdrop]
  exact hne

/-- Side condition 4 instantiated: the fragment has no nontrivial border
(no nonempty proper suffix of it is one of its prefixes). -/
lemma frag_h4 : ∀ s, s <:+ oldFragment.data → s ≠ [] → s ≠ oldFragment.data →
    ¬ s <+: oldFragment.data := by
  intro s hs hne hneF
  have hdrop : s = oldFragment.data.drop (oldFragment.data.length - s.length) :=
    List.suffix_iff_eq_drop.mp hs
  have hslen : s.length ≤ oldFragment.data.length := List.IsSuffix.length_le hs
  have hj : 1 ≤ oldFragment.data.length - s.length := by
    rcases Nat.lt_or_ge s.length oldFragment.data.length with h | h
    · omega
    · exfalso
      apply hneF
      have : s.length = oldFragment.data.length := by omega
      rw [hdrop, this]
      simp
  rw [hdrop]
  apply tailFree_sound frag_tailFree_self _ hj
  rw [← hdrop]
  exact hne

/-- The combined no-recurrence fact for the concrete fragment and
replacement. -/
lemma frag_noRecur : ∀ n l, l.length ≤ n →
    (¬ oldFragment.data <:+: replaceFuel oldFragment.data new_code.data n l) ∧
    (∀ j, 1 ≤ j → j < oldFragment.data.length →
      oldFragment.data.drop j <+: replaceFuel oldFragment.data new_code.data n l →
      oldFragment.data.drop j <+: l) :=
  replaceFuel_noRecur oldFragment.data new_code.data frag_ne_nil
    (Nat.le_of_lt frag_len_lt) frag_h1 frag_h2 frag_h3

/-- A string equals the string rebuilt from its characters. -/
lemma string_mk_data (s : String) : String.mk s.data = s := rfl

/-- When the fragment occurs in the content, the substitution changes the
content (it strictly lengthens it). -/
lemma sub_ne_of_occ {content : String}
    (h : oldFragment.data <:+: content.data) :
    pySub oldFragment.data new_code.data content ≠ content := by
  intro he
  have hlen := replaceFuel_length_gt oldFragment.data new_code.data frag_ne_nil
    frag_len_lt content.data.length content.data le_rfl h
  have hdata : replaceFuel oldFragment.data new_code.data content.data.length
      content.data = content.data := congrArg String.data he
  rw [hdata] at hlen
  omega

/-- When the fragment does not occur, the substitution is the identity. -/
lemma sub_eq_of_noOcc {content : String}
    (h : ¬ oldFragment.data <:+: content.data) :
    pySub oldFragment.data new_code.data content = content := by
  unfold pySub
  rw [noOcc_replaceFuel _ _ _ _ h, string_mk_data]

/-- `patchStep` in the branch where the substitution changed the text. -/
lemma patchStep_of_ne {pat : List Char} {content : String}
    (h : pySub pat new_code.data content ≠ content) :
    patchStep pat content =
      { fileAfter := some (pySub pat new_code.data content), wrote := true,
        printed := [successLine], raised := false } := by
  simp only [patchStep]
  rw [if_pos h]

/-- `patchStep` in the branch where the substitution was a no-op. -/
lemma patchStep_of_eq {pat : List Char} {content : String}
    (h : pySub pat new_code.data content = content) :
    patchStep pat content =
      { fileAfter := some content, wrote := false,
        printed := warnLine ::
          (if containsSub sigStr.data content.data then
            foundLine ::
              (if containsSub markerStr.data content.data then [patchedLine]
               else [manualLine])
           else []),
        raised := false } := by
  simp only [patchStep]
  rw [if_neg (fun hne => hne h)]

/-- C1: for every file content in which the pattern matches, the script
produces the content with the matched spans replaced by the fixed
replacement block, overwrites the file entirely with it, and prints the
success line; moreover the write and the success message happen exactly
when the post-substitution content differs from the original. -/
theorem claim1_match_writes_and_reports (content : String) :
    runPatcher content = some (patchStep oldFragment.data content) ∧
    (containsSub oldFragment.data content.data = true →
      patchStep oldFragment.data content =
        { fileAfter := some (pySub oldFragment.data new_code.data content),
          wrote := true, printed := [successLine], raised := false }) ∧
    ((patchStep oldFragment.data content).wrote = true ↔
      pySub oldFragment.data new_code.data content ≠ content) ∧
    ((patchStep oldFragment.data content).printed = [successLine] ↔
      pySub oldFragment.data new_code.data content ≠ content) := by
  refine ⟨runPatcher_eq content, ?_, ?_, ?_⟩
  · intro h
    exact patchStep_of_ne (sub_ne_of_occ ((containsSub_iff _ _).mp h))
  · by_cases h : pySub oldFragment.data new_code.data content = content
    · rw [patchStep_of_eq h]
      simp [h]
    · rw [patchStep_of_ne h]
      simp [h]
  · by_cases h : pySub oldFragment.data new_code.data content = content
    · rw [patchStep_of_eq h]
      constructor
      · intro hw
        exact absurd (List.head_eq_of_cons_eq hw) (by decide)
      · intro hne
        exact absurd h hne
    · rw [patchStep_of_ne h]
      simp [h]

/-- C1 witness: on content equal to the fragment itself the pattern
matches, the file is rewritten to the replacement and the success line is
printed. -/
theorem claim1_witness :
    containsSub oldFragment.data oldFragment.data = true ∧
    patchStep oldFragment.data oldFragment =
      { fileAfter := some (pySub oldFragment.data new_code.data oldFragment),
        wrote := true, printed := [successLine], raised := false } :=
  ⟨by decide, (claim1_match_writes_and_reports oldFragment).2.1 (by decide)⟩

/-- C2: when the fragment does not occur in the content, the substitution
result equals the source text, nothing is written, and the file content
after the run is byte-identical to the original. -/
theorem claim2_no_match_is_noop (content : String)
    (h : containsSub oldFragment.data content.data = false) :
    pySub oldFragment.data new_code.data content = content ∧
    runPatcher content = some (patchStep oldFragment.data content) ∧
    (patchStep oldFragment.data content).wrote = false ∧
    (patchStep oldFragment.data content).fileAfter = some content := by
  have hocc : ¬ oldFragment.data <:+: content.data :=
    (containsSub_eq_false_iff _ _).mp h
  have heq := sub_eq_of_noOcc hocc
  refine ⟨heq, runPatcher_eq content, ?_, ?_⟩ <;> rw [patchStep_of_eq heq]

/-- C2 witness: content `"x"` does not contain the fragment and the run
leaves it untouched without writing. -/
theorem claim2_witness :
    containsSub oldFragment.data ("x" : String).data = false ∧
    (pySub oldFragment.data new_code.data "x" = "x" ∧
      runPatcher "x" = some (patchStep oldFragment.data "x") ∧
      (patchStep oldFragment.data "x").wrote = false ∧
      (patchStep oldFragment.data "x").fileAfter = some "x") :=
  ⟨by decide, claim2_no_match_is_noop "x" (by decide)⟩

/-- C3: on any content containing the fragment the first run writes the
patched text; the patched text no longer contains the fragment, so a
second run performs no substitution and no write, and its fallback
diagnostics find the already-patched marker and report the already-patched
line. -/
theorem claim3_idempotent (content : String)
    (h : containsSub oldFragment.data content.data = true) :
    (patchStep oldFragment.data content).wrote = true ∧
    (patchStep oldFragment.data content).fileAfter =
      some (pySub oldFragment.data new_code.data content) ∧
    containsSub oldFragment.data
      (pySub oldFragment.data new_code.data content).data = false ∧
    containsSub markerStr.data
      (pySub oldFragment.data new_code.data content).data = true ∧
    pySub oldFragment.data new_code.data
      (pySub oldFragment.data new_code.data content) =
      pySub oldFragment.data new_code.data content ∧
    patchStep oldFragment.data (pySub oldFragment.data new_code.data content) =
      { fileAfter := some (pySub oldFragment.data new_code.data content),
        wrote := false, printed := [warnLine, foundLine, patchedLine],
        raised := false } := by
  have hocc : oldFragment.data <:+: content.data := (containsSub_iff _ _).mp h
  have hne := sub_ne_of_occ hocc
  have hstep := patchStep_of_ne hne
  have hdata : (pySub oldFragment.data new_code.data content).data =
      replaceFuel oldFragment.data new_code.data content.data.length content.data := rfl
  have hnoocc : ¬ oldFragment.data <:+:
      (pySub oldFragment.data new_code.data content).data := by
    rw [hdata]
    exact (frag_noRecur content.data.length content.data le_rfl).1
  have hrepl : new_code.data <:+: (pySub oldFragment.data new_code.data content).data := by
    rw [hdata]
    exact replaceFuel_inserts_repl oldFragment.data new_code.data frag_ne_nil
      content.data.length content.data le_rfl hocc
  have hmark : containsSub markerStr.data
      (pySub oldFragment.data new_code.data content).data = true :=
    (containsSub_iff _ _).mpr
      (List.IsInfix.trans ((containsSub_iff _ _).mp marker_in_repl) hrepl)
  have hsig : containsSub sigStr.data
      (pySub oldFragment.data new_code.data content).data = true :=
    (containsSub_iff _ _).mpr
      (List.IsInfix.trans ((containsSub_iff _ _).mp sig_in_repl) hrepl)
  have hid : pySub oldFragment.data new_code.data
      (pySub oldFragment.data new_code.data content) =
      pySub oldFragment.data new_code.data content :=
    sub_eq_of_noOcc hnoocc
  refine ⟨by rw [hstep], by rw [hstep], ?_, hmark, hid, ?_⟩
  · rw [containsSub_eq_false_iff]
    exact hnoocc
  · rw [patchStep_of_eq hid, hsig, hmark]
    simp

/-- C3 witness: starting from content equal to the fragment, the first run
writes and the second run reports already patched without writing. -/
theorem claim3_witness :
    containsSub oldFragment.data oldFragment.data = true ∧
    ((patchStep oldFragment.data oldFragment).wrote = true ∧
      (patchStep oldFragment.data oldFragment).fileAfter =
        some (pySub oldFragment.data new_code.data oldFragment) ∧
      containsSub oldFragment.data
        (pySub oldFragment.data new_code.data oldFragment).data = false ∧
      containsSub markerStr.data
        (pySub oldFragment.data new_code.data oldFragment).data = true ∧
      pySub oldFragment.data new_code.data
        (pySub oldFragment.data new_code.data oldFragment) =
        pySub oldFragment.data new_code.data oldFragment ∧
      patchStep oldFragment.data (pySub oldFragment.data new_code.data oldFragment) =
        { fileAfter := some (pySub oldFragment.data new_code.data oldFragment),
          wrote := false, printed := [warnLine, foundLine, patchedLine],
          raised := false }) :=
  ⟨by decide, claim3_idempotent oldFragment (by decide)⟩

/-- C4: content that contains the signature substring but neither matches
the full pattern nor contains the already-patched marker is left
unchanged, nothing is written, and the run prints the warning, the
found-signature line and the manual-intervention line. -/
theorem claim4_manual_intervention (content : String)
    (hsig : containsSub sigStr.data content.data = true)
    (hno : containsSub oldFragment.data content.data = false)
    (hmark : containsSub markerStr.data content.data = false) :
    pySub oldFragment.data new_code.data content = content ∧
    runPatcher content = some
      { fileAfter := some content, wrote := false,
        printed := [warnLine, foundLine, manualLine], raised := false } := by
  have hocc : ¬ oldFragment.data <:+: content.data :=
    (containsSub_eq_false_iff _ _).mp hno
  have heq := sub_eq_of_noOcc hocc
  refine ⟨heq, ?_⟩
  rw [runPatcher_eq content, patchStep_of_eq heq, hsig, hmark]
  simp

/-- C4 witness: content equal to the signature substring itself triggers
the manual-intervention diagnostic without modifying the file. -/
theorem claim4_witness :
    containsSub sigStr.data sigStr.data = true ∧
    containsSub oldFragment.data sigStr.data = false ∧
    containsSub markerStr.data sigStr.data = false ∧
    (pySub oldFragment.data new_code.data sigStr = sigStr ∧
      runPatcher sigStr = some
        { fileAfter := some sigStr, wrote := false,
          printed := [warnLine, foundLine, manualLine], raised := false }) :=
  ⟨by decide, by decide, by decide,
    claim4_manual_intervention sigStr (by decide) (by decide) (by decide)⟩

/-- C5 counterexample: content equal to the marker substring alone
contains the already-patched marker and no substitution occurs, yet the
script prints only the warning line — the already-patched report is NOT
produced, because the marker check is nested inside the signature check. -/
theorem claim5_counterexample :
    pySub oldFragment.data new_code.data markerStr = markerStr ∧
    containsSub markerStr.data markerStr.data = true ∧
    (patchStep oldFragment.data markerStr).printed = [warnLine] ∧
    patchedLine ∉ (patchStep oldFragment.data markerStr).printed := by
  refine ⟨by decide, by decide, by decide, by decide⟩

/-- C5 amended: whenever no substitution occurred and the marker substring
is present, the script reports already patched exactly when the signature
substring is ALSO present; when the signature is absent, only the warning
line is printed. -/
theorem claim5_amended_nested_marker_check (content : String)
    (hnosub : pySub oldFragment.data new_code.data content = content)
    (hmark : containsSub markerStr.data content.data = true) :
    (containsSub sigStr.data content.data = true →
      (patchStep oldFragment.data content).printed =
        [warnLine, foundLine, patchedLine]) ∧
    (containsSub sigStr.data content.data = false →
      (patchStep oldFragment.data content).printed = [warnLine]) := by
  rw [patchStep_of_eq hnosub]
  constructor
  · intro hsig
    rw [hsig, hmark]
    simp
  · intro hsig
    rw [hsig]
    simp

/-- C5 amended witness: the replacement block itself contains both the
marker and the signature, is not changed by the substitution, and the run
on it reports already patched. -/
theorem claim5_amended_witness :
    pySub oldFragment.data new_code.data new_code = new_code ∧
    containsSub markerStr.data new_code.data = true ∧
    containsSub sigStr.data new_code.data = true ∧
    (patchStep oldFragment.data new_code).printed =
      [warnLine, foundLine, patchedLine] :=
  ⟨by decide, by decide, by decide,
    (claim5_amended_nested_marker_check new_code (by decide) (by decide)).1 (by decide)⟩

/-- C6: in the logic installed by the replacement text, an update payload
with a truthy `canvas` gets `version` set to the explicitly provided
`updates.version` when present and to the layer's prior version plus one
otherwise, a missing prior version counting as zero (prior version `3`
yields `4`); a payload without `canvas` passes through unchanged and the
merged object keeps the layer's prior version. -/
theorem claim6_version_logic {α β : Type} (layer : JsLayer β) (ov : Option Int)
    (r : α) (v : Int) :
    (newUpdates layer { canvas := true, version := some v, rest := r } =
      { canvas := true, version := some v, rest := r }) ∧
    (updatedVersion layer { canvas := true, version := some v, rest := r } = some v) ∧
    (newUpdates layer { canvas := true, version := none, rest := r } =
      { canvas := true, version := some (layer.version.getD 0 + 1), rest := r }) ∧
    (newUpdates { version := some 3, rest := layer.rest }
        { canvas := true, version := none, rest := r } =
      { canvas := true, version := some 4, rest := r }) ∧
    (updatedVersion { version := some 3, rest := layer.rest }
        { canvas := true, version := none, rest := r } = some 4) ∧
    (newUpdates layer { canvas := false, version := ov, rest := r } =
      { canvas := false, version := ov, rest := r }) ∧
    (updatedVersion layer { canvas := false, version := none, rest := r } =
      layer.version) := by
  refine ⟨?_, ?_, ?_, ?_, ?_, ?_, ?_⟩ <;>
    simp [newUpdates, updatedVersion, jsOrZero_eq_getD]

/-- C7 counterexample: on content equal to the signature substring the run
prints the manual-intervention line, a status line outside the three
possibilities (success, warning, already patched) named by the claim. -/
theorem claim7_counterexample :
    runPatcher sigStr = some (patchStep oldFragment.data sigStr) ∧
    manualLine ∈ (patchStep oldFragment.data sigStr).printed ∧
    manualLine ∉ [successLine, warnLine, patchedLine] :=
  ⟨runPatcher_eq sigStr, by decide, by decide⟩

/-- C7 amended: every status line any run prints is drawn from exactly
five possibilities: success, the not-found warning, the found-signature
line, the already-patched line and the manual-intervention line. -/
theorem claim7_amended_five_lines (content : String) (s : String)
    (hs : s ∈ (patchStep oldFragment.data content).printed) :
    s ∈ [successLine, warnLine, foundLine, patchedLine, manualLine] := by
  by_cases h : pySub oldFragment.data new_code.data content = content
  · rw [patchStep_of_eq h] at hs
    simp only [List.mem_cons] at hs
    rcases hs with rfl | hs
    · simp
    · split_ifs at hs with h1 h2
      · simp only [List.mem_cons, List.mem_singleton] at hs
        rcases hs with rfl | rfl | h
        · simp
        · simp
        · cases h
      · simp only [List.mem_cons, List.mem_singleton] at hs
        rcases hs with rfl | rfl | h
        · simp
        · simp
        · cases h
      · exact absurd hs (List.not_mem_nil s)
  · rw [patchStep_of_ne h] at hs
    simp only [List.mem_cons, List.mem_singleton] at hs
    rcases hs with rfl | h
    · simp
    · cases h

/-- C7 amended witness: the manual-intervention line printed on the
signature-only content is among the five possibilities. -/
theorem claim7_amended_witness :
    manualLine ∈ (patchStep oldFragment.data sigStr).printed ∧
    manualLine ∈ [successLine, warnLine, foundLine, patchedLine, manualLine] :=
  ⟨by decide, claim7_amended_five_lines sigStr manualLine (by decide)⟩

/-- C8: when reading the target file fails, the exception propagates
uncaught and the run ends before any substitution, any write and any
status output: the file is unchanged and nothing is printed; when the
read succeeds the run proceeds to the patcher. -/
theorem claim8_read_failure_aborts :
    runScript none =
      some { fileAfter := none, wrote := false, printed := [], raised := true } ∧
    (∀ content, runScript (some content) = runPatcher content) :=
  ⟨rfl, fun _ => rfl⟩

/-- C9: the fully escaped pattern denotes exactly the literal fragment
(`re.MULTILINE` is irrelevant since no unescaped `^`/`$` occurs); the
substitution fires (observable as a write) precisely when the fragment
occurs as a contiguous substring of the content; and the scan computes
plain literal replacement of every occurrence of the fragment. -/
theorem claim9_regex_is_literal_replacement :
    parseLiteralPattern old_pattern.data = some oldFragment.data ∧
    (∀ content : String, (patchStep oldFragment.data content).wrote = true ↔
        containsSub oldFragment.data content.data = true) ∧
    (∀ content : String,
        (pySub oldFragment.data new_code.data content).data =
          literalReplaceAll oldFragment.data new_code.data content.data) := by
  refine ⟨parse_old_pattern, ?_, ?_⟩
  · intro content
    constructor
    · intro hw
      by_contra hcb
      have hfalse : containsSub oldFragment.data content.data = false := by
        cases hc : containsSub oldFragment.data content.data
        · rfl
        · exact absurd hc hcb
      have hocc := (containsSub_eq_false_iff _ _).mp hfalse
      rw [patchStep_of_eq (sub_eq_of_noOcc hocc)] at hw
      simp at hw
    · intro hc
      rw [patchStep_of_ne (sub_ne_of_occ ((containsSub_iff _ _).mp hc))]
  · intro content
    exact replaceFuel_eq_literal oldFragment.data new_code.data frag_ne_nil
      content.data.length content.data le_rfl

/-- C10: the scan with unlimited count replaces every non-overlapping
occurrence, not only the first: copied text before an occurrence is
followed by the replacement and by the scan of the remainder (where later
occurrences are again replaced), and no occurrence of the fragment
survives in any output. -/
theorem claim10_all_occurrences (u t : List Char)
    (hu : containsSub oldFragment.data u = false) :
    replaceFuel oldFragment.data new_code.data
        (u ++ oldFragment.data ++ t).length (u ++ oldFragment.data ++ t) =
      u ++ new_code.data ++ replaceFuel oldFragment.data new_code.data t.length t ∧
    (∀ l : List Char,
      containsSub oldFragment.data
        (replaceFuel oldFragment.data new_code.data l.length l) = false) := by
  constructor
  · exact replaceFuel_step oldFragment.data new_code.data frag_ne_nil frag_h4 u t _
      ((containsSub_eq_false_iff _ _).mp hu) le_rfl
  · intro l
    rw [containsSub_eq_false_iff]
    exact (frag_noRecur l.length l le_rfl).1

/-- C10 witness: on `"x" ++ fragment ++ fragment` the scan keeps the `x`,
replaces the first occurrence and continues into the tail holding the
second occurrence. -/
theorem claim10_witness :
    containsSub oldFragment.data ['x'] = false ∧
    replaceFuel oldFragment.data new_code.data
        (['x'] ++ oldFragment.data ++ oldFragment.data).length
        (['x'] ++ oldFragment.data ++ oldFragment.data) =
      ['x'] ++ new_code.data ++
        replaceFuel oldFragment.data new_code.data oldFragment.data.length
          oldFragment.data :=
  ⟨by decide, (claim10_all_occurrences ['x'] oldFragment.data (by decide)).1⟩
